import Mathlib

/-!
Verification of the double-count sanity check in
`larpandora/LArPandoraAnalysis/DoubleCountSanityCheck_module.cc`.

The `analyze` method of the module, for one event, builds a map from each hit to
the sequence of PFParticles (PFOs) that reach it through the two-level
association PFO → Cluster → Hit, then scans the full hit list, counts the
hits whose associated-PFO sequence has length greater than one, prints one
diagnostic line per hit, and finally throws `std::logic_error` exactly when
that count is nonzero.

We model the event data by opaque natural-number identities.  The two input
association relations are total functions on identities (`FindManyP` in the
source is indexed by the key of the object; keys and identities coincide here).
The `std::unordered_map` with `operator[]` default-construction is modelled
as a total function `Nat → List Nat` whose initial value is the empty list
everywhere; `push_back` is modelled by appending at the looked-up key.
-/

namespace DoubleCount

/-- Input data of one event: the hit list from the hit producer, the
PFParticle list, the PFO → Cluster association and the Cluster → Hit
association, each giving the ordered sequence associated to an identity. -/
structure Event where
  hits : List Nat
  pfos : List Nat
  pfoToClusters : Nat → List Nat
  clusterToHits : Nat → List Nat

/-- One `hitToPFParticlesMap[pHit].push_back(pPFParticle)` step of the source
(line 110): look up the per-hit sequence, default-empty, and append `p`. -/
def pushPFO (p : Nat) (m : Nat → List Nat) (h : Nat) : Nat → List Nat :=
  fun x => if x = h then m h ++ [p] else m x

/-- The resolver of lines 100-113: the triple loop over PFParticles (in input
order), the clusters of each PFParticle (in relation order) and the
hits of each cluster (in relation order), appending the PFParticle to the
sequence of the hit. -/
def hitToPFParticlesMap (ev : Event) : Nat → List Nat :=
  ev.pfos.foldl
    (fun m p =>
      (ev.pfoToClusters p).foldl
        (fun m c => (ev.clusterToHits c).foldl (pushPFO p) m)
        m)
    (fun _ => [])

/-- One iteration of the audit loop of lines 118-132: record the diagnostic
pair (hit identity, number of associated PFParticles) and increment the
multi-association counter unless `nPFParticles <= 1`. -/
def auditStep (ev : Event) (acc : List (Nat × Nat) × Nat) (h : Nat) :
    List (Nat × Nat) × Nat :=
  let nPFParticles := (hitToPFParticlesMap ev h).length
  (acc.1 ++ [(h, nPFParticles)],
   if nPFParticles ≤ 1 then acc.2 else acc.2 + 1)

/-- Observable outcome of one call to `analyze`: the printed totals, the
per-hit diagnostic lines, and whether the final `std::logic_error`
("Found hits with multiple associated PFParticles!") was thrown. -/
structure Result where
  totalHits : Nat
  overAssociatedHits : Nat
  perHitDiagnostics : List (Nat × Nat)
  thrown : Bool

/-- The audit phase of lines 116-139: scan the hit list in order with
`auditStep`, report `nHits` and `nMultiAssociatedHits`, and throw exactly
when the latter is nonzero (lines 136-137, reached only after the loop). -/
def analyze (ev : Event) : Result :=
  let nHits := ev.hits.length
  let a := ev.hits.foldl (auditStep ev) ([], 0)
  { totalHits := nHits
    overAssociatedHits := a.2
    perHitDiagnostics := a.1
    thrown := a.2 != 0 }

/-- Spec-side description of the resolver (§4.1 of the specification): for
each PFO p in input order, for each cluster c of p in relation order, for
each occurrence of the hit in the hit sequence of c in relation order, emit p.
Written independently of `hitToPFParticlesMap`, to be compared with it. -/
def hitToPFOsSpec (ev : Event) (h : Nat) : List Nat :=
  ev.pfos.flatMap fun p =>
    (ev.pfoToClusters p).flatMap fun c =>
      (ev.clusterToHits c).filterMap fun x => if x = h then some p else none

/-- Number of distinct PFO identities associated to hit `h` — the quantity
the specification says over-association classification should use. -/
def distinctPFOCount (ev : Event) (h : Nat) : Nat :=
  (hitToPFParticlesMap ev h).dedup.length

/-- Effect of the innermost loop (over the hits of one cluster) on the map,
read at an arbitrary key `x`: every occurrence of `x` appends `p` once. -/
theorem foldl_pushPFO_apply (l : List Nat) (m : Nat → List Nat) (p x : Nat) :
    (l.foldl (pushPFO p) m) x
      = m x ++ l.filterMap (fun y => if y = x then some p else none) := by
  induction l generalizing m with
  | nil => simp
  | cons a l ih =>
    rw [List.foldl_cons, ih, List.filterMap_cons]
    by_cases hax : a = x
    · subst hax
      simp [pushPFO]
    · rw [if_neg hax]
      have hxa : x ≠ a := fun heq => hax heq.symm
      simp [pushPFO, hxa]

/-- Effect of the middle loop (over the clusters of one PFParticle) on the map,
read at an arbitrary key `x`. -/
theorem foldl_clusters_apply (ev : Event) (cl : List Nat) (m : Nat → List Nat)
    (p x : Nat) :
    (cl.foldl (fun m c => (ev.clusterToHits c).foldl (pushPFO p) m) m) x
      = m x ++ cl.flatMap
          (fun c => (ev.clusterToHits c).filterMap
            (fun y => if y = x then some p else none)) := by
  induction cl generalizing m with
  | nil => simp
  | cons c cl ih =>
    rw [List.foldl_cons, ih, List.flatMap_cons, foldl_pushPFO_apply,
      List.append_assoc]

/-- Effect of the outer loop (over the PFParticle list) on the map, read at
an arbitrary key `x`. -/
theorem foldl_pfos_apply (ev : Event) (ps : List Nat) (m : Nat → List Nat)
    (x : Nat) :
    (ps.foldl
        (fun m p => (ev.pfoToClusters p).foldl
          (fun m c => (ev.clusterToHits c).foldl (pushPFO p) m) m) m) x
      = m x ++ ps.flatMap
          (fun p => (ev.pfoToClusters p).flatMap
            (fun c => (ev.clusterToHits c).filterMap
              (fun y => if y = x then some p else none))) := by
  induction ps generalizing m with
  | nil => simp
  | cons p ps ih =>
    rw [List.foldl_cons, ih, List.flatMap_cons, foldl_clusters_apply,
      List.append_assoc]

/-- The triple-loop construction agrees with the nested flatMap form. -/
theorem hitToPFParticlesMap_eq_spec (ev : Event) (h : Nat) :
    hitToPFParticlesMap ev h = hitToPFOsSpec ev h := by
  rw [hitToPFParticlesMap, hitToPFOsSpec, foldl_pfos_apply]
  simp

/-- Characterization of the audit fold: it appends one diagnostic pair per
hit, in list order, and adds one to the counter per hit whose associated
sequence is longer than one. -/
theorem foldl_audit (ev : Event) (l : List Nat) (d : List (Nat × Nat))
    (n : Nat) :
    l.foldl (auditStep ev) (d, n)
      = (d ++ l.map (fun h => (h, (hitToPFParticlesMap ev h).length)),
         n + l.countP (fun h => decide (1 < (hitToPFParticlesMap ev h).length))) := by
  induction l generalizing d n with
  | nil => simp
  | cons a l ih =>
    rw [List.foldl_cons, auditStep, ih, List.map_cons, List.countP_cons]
    refine congrArg₂ Prod.mk (by simp) ?_
    by_cases hle : (hitToPFParticlesMap ev a).length ≤ 1
    · have hnot : ¬ 1 < (hitToPFParticlesMap ev a).length := Nat.not_lt.mpr hle
      simp [hle, hnot]
    · have hlt : 1 < (hitToPFParticlesMap ev a).length := Nat.not_le.mp hle
      simp [hle, hlt]
      omega

/-- The final multi-association count is a `countP` over the hit list. -/
theorem analyze_overAssociatedHits (ev : Event) :
    (analyze ev).overAssociatedHits
      = ev.hits.countP (fun h => decide (1 < (hitToPFParticlesMap ev h).length)) := by
  show (ev.hits.foldl (auditStep ev) ([], 0)).2 = _
  rw [foldl_audit]
  simp

/-- The diagnostic lines are exactly one pair per hit, in list order. -/
theorem analyze_perHitDiagnostics (ev : Event) :
    (analyze ev).perHitDiagnostics
      = ev.hits.map (fun h => (h, (hitToPFParticlesMap ev h).length)) := by
  show (ev.hits.foldl (auditStep ev) ([], 0)).1 = _
  rw [foldl_audit]
  simp

/-- The reported total is the hit-list length. -/
theorem analyze_totalHits (ev : Event) :
    (analyze ev).totalHits = ev.hits.length := rfl

/-- The exception is thrown exactly when the final count is nonzero. -/
theorem analyze_thrown (ev : Event) :
    (analyze ev).thrown = ((analyze ev).overAssociatedHits != 0) := rfl

/-- The distinct-PFO count never exceeds the raw sequence length. -/
theorem distinctPFOCount_le_length (ev : Event) (h : Nat) :
    distinctPFOCount ev h ≤ (hitToPFParticlesMap ev h).length :=
  (List.dedup_sublist _).length_le

/-- One event: a single hit `0`, a single PFParticle `4` owning the two
clusters `1` and `2`, each of which contains hit `0`.  The same PFO reaches
the hit through two different clusters. -/
def evSamePFOTwoClusters : Event :=
  { hits := [0]
    pfos := [4]
    pfoToClusters := fun _ => [1, 2]
    clusterToHits := fun _ => [0] }

/-- One event: a single hit `3`, a single PFParticle `5` owning clusters `0`
and `1`, both of which contain hit `3`. -/
def evOnePFOTwice : Event :=
  { hits := [3]
    pfos := [5]
    pfoToClusters := fun _ => [0, 1]
    clusterToHits := fun _ => [3] }

/-- One event: a single hit `7`, two PFParticles `1` and `2`, each owning
cluster `0`, which contains hit `7`: a genuine double-count violation. -/
def evTwoOwners : Event :=
  { hits := [7]
    pfos := [1, 2]
    pfoToClusters := fun _ => [0]
    clusterToHits := fun _ => [7] }

/-- One event: hit list `[0]`, two PFParticles `1` and `2`, each owning
cluster `0`, whose hit sequence is `[9]` — hit `9` is referenced by the
relation but absent from the supplied hit list. -/
def evStrayHit : Event :=
  { hits := [0]
    pfos := [1, 2]
    pfoToClusters := fun _ => [0]
    clusterToHits := fun _ => [9] }

/-- One failing event with two hits: hits `[0, 1]`, PFParticles `3` and `4`
each owning cluster `0`, which contains hit `0`; hit `1` is unassociated. -/
def evOneBadOneClean : Event :=
  { hits := [0, 1]
    pfos := [3, 4]
    pfoToClusters := fun _ => [0]
    clusterToHits := fun _ => [0] }

/-- One event used to witness two-hop reachability: hit `0`, PFParticle `1`
owning cluster `2`, which contains hit `0`. -/
def evOneChain : Event :=
  { hits := [0]
    pfos := [1]
    pfoToClusters := fun _ => [2]
    clusterToHits := fun _ => [0] }

/-- Base event for the permutation witness: hit `7`, PFParticles `1` and
`2`; PFParticle `1` owns cluster `0` (which contains hit `7`), PFParticle
`2` owns cluster `1` (which is empty). -/
def evPermBase : Event :=
  { hits := [7]
    pfos := [1, 2]
    pfoToClusters := fun p => if p = 1 then [0] else [1]
    clusterToHits := fun c => if c = 0 then [7] else [] }

/-- The permutation-witness event: same data with the PFO list reversed. -/
def evPermSwapped : Event :=
  { evPermBase with pfos := [2, 1] }

/-- C1: the fatal `std::logic_error` is thrown if and only if the final
multi-association count is nonzero; with a zero count the call completes
normally. -/
theorem C1_throw_iff_over (ev : Event) :
    (analyze ev).thrown = true ↔ (analyze ev).overAssociatedHits ≠ 0 := by
  rw [analyze_thrown]
  exact bne_iff_ne

/-- C2 (code bug witness): a hit reached twice by the same single
PFParticle through two different clusters has distinct-PFO count `1`, yet
the source counts the raw sequence length `2`, classifies the hit as
multi-associated and throws. -/
theorem C2_raw_length_not_distinct :
    distinctPFOCount evSamePFOTwoClusters 0 = 1
      ∧ (hitToPFParticlesMap evSamePFOTwoClusters 0).length = 2
      ∧ (analyze evSamePFOTwoClusters).overAssociatedHits = 1
      ∧ (analyze evSamePFOTwoClusters).thrown = true := by
  decide

/-- C3: an event in which some hit of the hit list has at least two
distinct associated PFParticles always ends with a nonzero reported count
and the thrown exception. -/
theorem C3_violation_detected (ev : Event) (h : Nat) (hmem : h ∈ ev.hits)
    (hdist : 2 ≤ distinctPFOCount ev h) :
    1 ≤ (analyze ev).overAssociatedHits ∧ (analyze ev).thrown = true := by
  have hlen : 1 < (hitToPFParticlesMap ev h).length :=
    Nat.lt_of_lt_of_le (by omega) (Nat.le_trans hdist (distinctPFOCount_le_length ev h))
  have hpos : 0 < (analyze ev).overAssociatedHits := by
    rw [analyze_overAssociatedHits]
    exact List.countP_pos_iff.mpr ⟨h, hmem, by simpa using hlen⟩
  refine ⟨hpos, ?_⟩
  rw [analyze_thrown, bne_iff_ne]
  omega

/-- Witness for C3 at the two-owner event. -/
theorem C3_violation_detected_witness :
    7 ∈ evTwoOwners.hits ∧ 2 ≤ distinctPFOCount evTwoOwners 7
      ∧ (1 ≤ (analyze evTwoOwners).overAssociatedHits
          ∧ (analyze evTwoOwners).thrown = true) :=
  ⟨by decide, by decide,
    C3_violation_detected evTwoOwners 7 (by decide) (by decide)⟩

/-- C4 (code bug witness): in `evOnePFOTwice` every hit of the hit list has
distinct-PFO count at most `1`, yet the source reports one multi-associated
hit and throws, because it compares the undeduplicated sequence length. -/
theorem C4_pass_violated_by_duplicates :
    (∀ h ∈ evOnePFOTwice.hits, distinctPFOCount evOnePFOTwice h ≤ 1)
      ∧ (analyze evOnePFOTwice).overAssociatedHits = 1
      ∧ (analyze evOnePFOTwice).thrown = true := by
  decide

/-- C5: for a PFParticle of the input list, the built map associates it to
a hit exactly when some cluster of its cluster sequence contains the hit. -/
theorem C5_two_hop_reachability (ev : Event) (p h : Nat) (hp : p ∈ ev.pfos) :
    p ∈ hitToPFParticlesMap ev h
      ↔ ∃ c ∈ ev.pfoToClusters p, h ∈ ev.clusterToHits c := by
  rw [hitToPFParticlesMap_eq_spec, hitToPFOsSpec]
  constructor
  · intro hmem
    obtain ⟨q, _, hq⟩ := List.mem_flatMap.mp hmem
    obtain ⟨c, hc, hcf⟩ := List.mem_flatMap.mp hq
    obtain ⟨x, hx, hxf⟩ := List.mem_filterMap.mp hcf
    by_cases hxh : x = h
    · rw [if_pos hxh] at hxf
      have hqp : q = p := Option.some.inj hxf
      subst hqp
      subst hxh
      exact ⟨c, hc, hx⟩
    · rw [if_neg hxh] at hxf
      exact absurd hxf (Option.noConfusion)
  · rintro ⟨c, hc, hh⟩
    refine List.mem_flatMap.mpr ⟨p, hp, List.mem_flatMap.mpr ⟨c, hc, ?_⟩⟩
    exact List.mem_filterMap.mpr ⟨h, hh, by simp⟩

/-- Witness for C5 at a one-chain event. -/
theorem C5_two_hop_reachability_witness :
    1 ∈ evOneChain.pfos
      ∧ (1 ∈ hitToPFParticlesMap evOneChain 0
          ↔ ∃ c ∈ evOneChain.pfoToClusters 1, 0 ∈ evOneChain.clusterToHits c) :=
  ⟨by decide, C5_two_hop_reachability evOneChain 1 0 (by decide)⟩

/-- C6: the per-hit sequence built by the triple loop is exactly the
spec-ordered traversal — one occurrence of PFO `p` for every pair of a
cluster of `p` and an occurrence of the hit in that cluster, in PFO input
order then cluster relation order then hit relation order, without any
deduplication. -/
theorem C6_resolver_order (ev : Event) (h : Nat) :
    hitToPFParticlesMap ev h = hitToPFOsSpec ev h :=
  hitToPFParticlesMap_eq_spec ev h

/-- C7: the reported total is always the length of the input hit list, and
there is exactly one diagnostic line per hit of that list, hits with no
associations included. -/
theorem C7_coverage (ev : Event) :
    (analyze ev).totalHits = ev.hits.length
      ∧ (analyze ev).perHitDiagnostics.length = ev.hits.length := by
  refine ⟨analyze_totalHits ev, ?_⟩
  rw [analyze_perHitDiagnostics, List.length_map]

/-- C9 (counterexample): `evStrayHit` has a cluster referencing hit `9`,
which is outside the supplied hit list and is reached by two distinct
PFParticles, yet the call completes normally with a zero count — no
malformed-input failure of any kind occurs. -/
theorem C9_no_malformed_input_failure :
    (9 ∈ evStrayHit.clusterToHits 0 ∧ 9 ∉ evStrayHit.hits)
      ∧ 2 ≤ distinctPFOCount evStrayHit 9
      ∧ (analyze evStrayHit).thrown = false
      ∧ (analyze evStrayHit).overAssociatedHits = 0 := by
  decide

/-- C9 (amended): the check performs no input validation: its only failure
condition is a hit of the supplied hit list whose associated sequence has
length at least two; relation entries for identities outside the hit list
are silently ignored by the audit. -/
theorem C9_only_failure_is_multi_association (ev : Event) :
    (analyze ev).thrown = true
      ↔ ∃ h ∈ ev.hits, 2 ≤ (hitToPFParticlesMap ev h).length := by
  rw [analyze_thrown, bne_iff_ne, ← Nat.pos_iff_ne_zero, analyze_overAssociatedHits,
    List.countP_pos_iff]
  constructor
  · rintro ⟨h, hmem, hdec⟩
    exact ⟨h, hmem, by simpa using of_decide_eq_true hdec⟩
  · rintro ⟨h, hmem, hlen⟩
    exact ⟨h, hmem, by simpa using hlen⟩

/-- C10: on a failing event the throw happens only after the audit loop is
complete: the diagnostic lines cover the whole hit list in order, and both
reported counts are those of the entire list, not of a prefix. -/
theorem C10_full_scan_before_throw (ev : Event)
    (_hthrow : (analyze ev).thrown = true) :
    (analyze ev).perHitDiagnostics
        = ev.hits.map (fun h => (h, (hitToPFParticlesMap ev h).length))
      ∧ (analyze ev).totalHits = ev.hits.length
      ∧ (analyze ev).overAssociatedHits
          = ev.hits.countP (fun h => decide (1 < (hitToPFParticlesMap ev h).length)) :=
  ⟨analyze_perHitDiagnostics ev, analyze_totalHits ev,
    analyze_overAssociatedHits ev⟩

/-- Witness for C10 at a failing event with a clean second hit. -/
theorem C10_full_scan_before_throw_witness :
    (analyze evOneBadOneClean).thrown = true
      ∧ ((analyze evOneBadOneClean).perHitDiagnostics
            = evOneBadOneClean.hits.map
                (fun h => (h, (hitToPFParticlesMap evOneBadOneClean h).length))
          ∧ (analyze evOneBadOneClean).totalHits = evOneBadOneClean.hits.length
          ∧ (analyze evOneBadOneClean).overAssociatedHits
              = evOneBadOneClean.hits.countP
                  (fun h => decide (1 < (hitToPFParticlesMap evOneBadOneClean h).length))) :=
  ⟨by decide, C10_full_scan_before_throw evOneBadOneClean (by decide)⟩

/-- Length of the occurrence filter: the number of times the hit occurs in
the hit sequence of the cluster, independently of which PFO is emitted. -/
theorem length_filterMap_occ (l : List Nat) (p h : Nat) :
    (l.filterMap fun y => if y = h then some p else none).length
      = l.countP (fun y => decide (y = h)) := by
  induction l with
  | nil => simp
  | cons a l ih =>
    rw [List.filterMap_cons, List.countP_cons]
    by_cases hah : a = h
    · simp [hah, ih]
    · simp [hah, ih]

/-- The per-hit sequence length as a double sum of occurrence counts. -/
theorem length_hitToPFParticlesMap (ev : Event) (h : Nat) :
    (hitToPFParticlesMap ev h).length
      = (ev.pfos.map fun p =>
          ((ev.pfoToClusters p).map fun c =>
            (ev.clusterToHits c).countP (fun y => decide (y = h))).sum).sum := by
  rw [hitToPFParticlesMap_eq_spec, hitToPFOsSpec, List.length_flatMap]
  refine congrArg List.sum (List.map_congr_left fun p _ => ?_)
  rw [Function.comp_apply, List.length_flatMap]
  exact congrArg List.sum (List.map_congr_left fun c _ =>
    length_filterMap_occ _ p h)

/-- Per-hit sequence lengths are unchanged by permuting the PFO list and
the cluster sequence of each PFO, with the hit relation fixed. -/
theorem length_map_perm_invariant (ev evP : Event)
    (hch : evP.clusterToHits = ev.clusterToHits)
    (hp : evP.pfos.Perm ev.pfos)
    (hpc : ∀ p, (evP.pfoToClusters p).Perm (ev.pfoToClusters p)) (h : Nat) :
    (hitToPFParticlesMap evP h).length = (hitToPFParticlesMap ev h).length := by
  rw [length_hitToPFParticlesMap, length_hitToPFParticlesMap]
  have hinner : ∀ p : Nat,
      ((evP.pfoToClusters p).map fun c =>
        (evP.clusterToHits c).countP (fun y => decide (y = h))).sum
        = ((ev.pfoToClusters p).map fun c =>
            (ev.clusterToHits c).countP (fun y => decide (y = h))).sum := by
    intro p
    rw [hch]
    exact ((hpc p).map _).sum_eq
  calc (evP.pfos.map fun p =>
          ((evP.pfoToClusters p).map fun c =>
            (evP.clusterToHits c).countP (fun y => decide (y = h))).sum).sum
      = (evP.pfos.map fun p =>
          ((ev.pfoToClusters p).map fun c =>
            (ev.clusterToHits c).countP (fun y => decide (y = h))).sum).sum := by
        exact congrArg List.sum (List.map_congr_left fun p _ => hinner p)
    _ = (ev.pfos.map fun p =>
          ((ev.pfoToClusters p).map fun c =>
            (ev.clusterToHits c).countP (fun y => decide (y = h))).sum).sum :=
        (hp.map _).sum_eq

/-- C8: permuting the PFO list and the cluster sequence of each PFO, with the
hit list and the cluster-to-hit relation unchanged, leaves the reported
total, the multi-association count and the throw verdict unchanged. -/
theorem C8_order_independence (ev evP : Event)
    (hh : evP.hits = ev.hits)
    (hch : evP.clusterToHits = ev.clusterToHits)
    (hp : evP.pfos.Perm ev.pfos)
    (hpc : ∀ p, (evP.pfoToClusters p).Perm (ev.pfoToClusters p)) :
    (analyze evP).totalHits = (analyze ev).totalHits
      ∧ (analyze evP).overAssociatedHits = (analyze ev).overAssociatedHits
      ∧ (analyze evP).thrown = (analyze ev).thrown := by
  have hover : (analyze evP).overAssociatedHits
      = (analyze ev).overAssociatedHits := by
    rw [analyze_overAssociatedHits, analyze_overAssociatedHits, hh]
    exact List.countP_congr fun h _ => by
      rw [length_map_perm_invariant ev evP hch hp hpc h]
  refine ⟨?_, hover, ?_⟩
  · rw [analyze_totalHits, analyze_totalHits, hh]
  · rw [analyze_thrown, analyze_thrown, hover]

/-- Witness for C8: the two permutation events with reversed PFO lists. -/
theorem C8_order_independence_witness :
    evPermSwapped.pfos.Perm evPermBase.pfos
      ∧ ((analyze evPermSwapped).totalHits = (analyze evPermBase).totalHits
          ∧ (analyze evPermSwapped).overAssociatedHits
              = (analyze evPermBase).overAssociatedHits
          ∧ (analyze evPermSwapped).thrown = (analyze evPermBase).thrown) :=
  ⟨by decide,
    C8_order_independence evPermBase evPermSwapped rfl rfl (by decide)
      (fun p => List.Perm.refl _)⟩

end DoubleCount
